import Mathlib

set_option maxRecDepth 16000

/-!
Shallow embedding of the fill-blank-question engine (React app sources:
`src/App.tsx`, `src/Editor.tsx`, and the TypeScript App variant).

The engine logic is pure string transformation:

* `handleSelection` trims the browser-provided selected text and inserts it
  into the selection set (a JS `Set`, modelled as an insertion-ordered,
  duplicate-free list).
* `handlePreviewClick` removes a clicked highlighted word from the set.
* `generateAndSetQuiz` sequentially replaces, for each selected word in set
  iteration order, every occurrence of that word in the source text with a
  numbered blank marker, and records one answer entry per word.
* `highlightedText` does the same with a `<mark>` wrapper carrying the word.
* The Editor variant (`createQuiz`) replaces with a single alternation regex
  and numbers each replaced occurrence.

JavaScript `String.prototype.replace` with a global regex of an escaped
(hence literal) pattern is modelled as leftmost, non-overlapping global
replacement of the literal word; the replacement string undergoes the
ECMAScript GetSubstitution transform (`$$`, `$&`, dollar-backquote,
dollar-quote), which we model faithfully in `substTemplate`.
-/

/-- Boolean test that `l₁` is a leading segment (prefix) of `l₂`. -/
def leadsWith : List Char → List Char → Bool
  | [], _ => true
  | _ :: _, [] => false
  | a :: l₁, b :: l₂ => a = b && leadsWith l₁ l₂

/-- Boolean test that `pat` occurs as a contiguous segment of `s`. -/
def hasSeg (pat : List Char) : List Char → Bool
  | [] => pat.isEmpty
  | c :: rest => leadsWith pat (c :: rest) || hasSeg pat rest

/-- The ECMAScript GetSubstitution transform applied to a replacement
template: `m` is the matched text, `b` the part of the subject string before
the match, `a` the part after it.  `$$` yields a dollar, `$&` the match,
dollar-backquote the text before, dollar-quote the text after; any other
dollar sequence is left literal (the compiled patterns have no capture
groups). -/
def substTemplate (m b a : List Char) : List Char → List Char
  | [] => []
  | c :: rest =>
    if c = '$' then
      match rest with
      | [] => [c]
      | d :: rest2 =>
        if d = '$' then '$' :: substTemplate m b a rest2
        else if d = '&' then m ++ substTemplate m b a rest2
        else if d = Char.ofNat 96 then b ++ substTemplate m b a rest2
        else if d = Char.ofNat 39 then a ++ substTemplate m b a rest2
        else c :: d :: substTemplate m b a rest2
    else c :: substTemplate m b a rest

/-- Global leftmost non-overlapping replacement of the literal pattern `pat`
by the template `tmpl` (with GetSubstitution applied at each match).  `pre`
accumulates the already-scanned part of the original string (needed for the
dollar-backquote form).  Fuel-based so that it is structurally recursive;
callers pass fuel larger than the subject length. -/
def goRep (pat tmpl : List Char) : Nat → List Char → List Char → List Char
  | 0, _, s => s
  | f + 1, pre, s =>
    match s with
    | [] => []
    | c :: rest =>
      if pat ≠ [] ∧ leadsWith pat (c :: rest) then
        substTemplate pat pre ((c :: rest).drop pat.length) tmpl
          ++ goRep pat tmpl f (pre ++ pat) ((c :: rest).drop pat.length)
      else
        c :: goRep pat tmpl f (pre ++ [c]) rest

/-- Replacement with an empty pattern: the ECMAScript global-replace of an
empty regex inserts the (substituted) template before every character and at
the end.  Unreachable for this app (selected words are nonempty), included
for faithfulness of the `replace` model. -/
def goRepEmpty (tmpl : List Char) : List Char → List Char → List Char
  | pre, [] => substTemplate [] pre [] tmpl
  | pre, c :: rest =>
    substTemplate [] pre (c :: rest) tmpl ++ c :: goRepEmpty tmpl (pre ++ [c]) rest

/-- Model of `s.replace(new RegExp(escaped literal, 'g'), tmpl)` for a
literal pattern `pat`. -/
def jsReplaceAll (s pat tmpl : String) : String :=
  if pat.data = [] then ⟨goRepEmpty tmpl.data [] s.data⟩
  else ⟨goRep pat.data tmpl.data (s.data.length + 1) [] s.data⟩

/-- Splitting companion of `goRep`: the pieces of the subject string between
consecutive leftmost non-overlapping occurrences of `pat` (same scan, same
fuel discipline). -/
def goSplit (pat : List Char) : Nat → List Char → List (List Char)
  | 0, s => [s]
  | f + 1, s =>
    match s with
    | [] => [[]]
    | c :: rest =>
      if pat ≠ [] ∧ leadsWith pat (c :: rest) then
        [] :: goSplit pat f ((c :: rest).drop pat.length)
      else
        match goSplit pat f rest with
        | [] => [[c]]
        | p :: ps => (c :: p) :: ps

/-- Joining of pieces with a separator (the inverse direction of
`goSplit`). -/
def joinsep (sep : List Char) : List (List Char) → List Char
  | [] => []
  | [p] => p
  | p :: ps => p ++ sep ++ joinsep sep ps

/-- The pieces of `s` between consecutive leftmost occurrences of the word
`w`, at the `String` level. -/
def strSplitOn (w s : String) : List String :=
  (goSplit w.data (s.data.length + 1) s.data).map String.mk

/-- Joining of string pieces with a separator string. -/
def strJoinsep (sep : String) (ps : List String) : String :=
  ⟨joinsep sep.data (ps.map String.data)⟩

/-- JavaScript `String.prototype.trim`, modelled with Lean's whitespace
predicate: drop whitespace from both ends. -/
def trimList (l : List Char) : List Char :=
  ((l.dropWhile Char.isWhitespace).reverse.dropWhile Char.isWhitespace).reverse

/-- The trim applied to selected text in `handleSelection`. -/
def jsTrim (s : String) : String := ⟨trimList s.data⟩

/-- The characters escaped by the source's escaping replace
`word.replace(/[.*+?^$\x7b\x7d()|[\]\\]/g, backslash-match)`. -/
def regexMetaChars : List Char :=
  ['.', '*', '+', '?', Char.ofNat 94, '$', Char.ofNat 123, Char.ofNat 125,
   '(', ')', '|', '[', ']', Char.ofNat 92]

/-- Escape one character: metacharacters get a preceding backslash. -/
def escapeChar (c : Char) : List Char :=
  if c ∈ regexMetaChars then [Char.ofNat 92, c] else [c]

/-- The source's `escapedWord` computation: every regex metacharacter of the
word is backslash-escaped. -/
def escapeRegExp (w : String) : String := ⟨(w.data.map escapeChar).flatten⟩

/-- Interpretation of a regex pattern that denotes a literal string: a
backslash followed by a metacharacter denotes that character; a plain
non-metacharacter denotes itself; anything else (an unescaped metacharacter,
a dangling backslash, or an escape that is not a literal) is rejected. -/
def literalOfPattern : List Char → Option (List Char)
  | [] => some []
  | c :: rest =>
    if c = Char.ofNat 92 then
      match rest with
      | [] => none
      | d :: rest2 =>
        if d ∈ regexMetaChars then (literalOfPattern rest2).map (fun l => d :: l)
        else none
    else if c ∈ regexMetaChars then none
    else (literalOfPattern rest).map (fun l => c :: l)

/-- One answer entry of the generated quiz (`AnswerData` in the TypeScript
source). -/
structure AnswerData where
  number : Nat
  word : String
deriving DecidableEq, Repr

/-- The state of the `App` component: view mode (`"select"` or `"quiz"`),
source text, generated quiz text, the selection set (insertion-ordered,
duplicate-free), and the answer list. -/
structure AppState where
  viewMode : String
  markdown : String
  quizText : String
  selections : List String
  quizAnswers : List AnswerData
deriving DecidableEq, Repr

/-- JS `new Set(prev).add(w)`: insertion into an insertion-ordered set —
a no-op when the element is present, appended otherwise. -/
def setAdd (s : List String) (w : String) : List String :=
  if w ∈ s then s else s ++ [w]

/-- Handler for text selection in the preview (App variant): outside select
mode it does nothing; otherwise the selected text is trimmed and, when
nonempty, added to the selection set. -/
def handleSelection (st : AppState) (raw : String) : AppState :=
  if st.viewMode ≠ "select" then st
  else
    let selectedText := jsTrim raw
    if selectedText ≠ "" then
      { st with selections := setAdd st.selections selectedText }
    else st

/-- Handler for clicks in the preview: in select mode, a click on a `MARK`
element with nonempty inner text deletes that text from the selection
set. -/
def handlePreviewClick (st : AppState) (tagName innerText : String) : AppState :=
  if st.viewMode = "select" ∧ tagName = "MARK" then
    if innerText ≠ "" then { st with selections := st.selections.erase innerText }
    else st
  else st

/-- The blank marker of the JSX App variant: `**( No.N )**`. -/
def appMarker (n : Nat) : String := "**( No." ++ Nat.repr n ++ " )**"

/-- The blank marker of the TypeScript App variant:
`<span class="question-target"> ( No.N ) </span>`. -/
def tsMarker (n : Nat) : String :=
  "<span class=\"question-target\"> ( No." ++ Nat.repr n ++ " ) </span>"

/-- The loop body of `generateAndSetQuiz`, parameterised by the marker
format: each word of the list, in order, is globally replaced (the compiled
pattern `new RegExp(escapeRegExp word, 'g')` denotes the literal word, see
`literalOfPattern_escape`) by the marker of the running question counter,
and one answer entry is pushed per word. -/
def genQuizLoopWith (marker : Nat → String) :
    List String → String → Nat → String × List AnswerData
  | [], text, _ => (text, [])
  | w :: ws, text, n =>
    let text2 := jsReplaceAll text w (marker n)
    let r := genQuizLoopWith marker ws text2 (n + 1)
    (r.1, ⟨n, w⟩ :: r.2)

/-- Quiz generation of the JSX App variant: a no-op on an empty selection
set; otherwise the words are taken in set-iteration (insertion) order,
each is globally replaced by its numbered marker, the answer list is
rebuilt, and the view mode switches to `"quiz"`. -/
def generateAndSetQuiz (st : AppState) : AppState :=
  if st.selections.isEmpty then st
  else
    let r := genQuizLoopWith appMarker st.selections st.markdown 1
    { st with quizText := r.1, quizAnswers := r.2, viewMode := "quiz" }

/-- The highlight wrapper of both App variants, with the raw word
interpolated into the template (before GetSubstitution). -/
def markTmpl (w : String) : String :=
  "<mark class=\"bg-yellow-300 px-1 rounded cursor-pointer\">" ++ w ++ "</mark>"

/-- One pass of the highlight loop: globally replace the word by its
`<mark>` wrapper. -/
def highlightStep (text w : String) : String :=
  jsReplaceAll text w (markTmpl w)

/-- The derived highlighted preview of the JSX App variant: every selected
word is wrapped, then newlines become `<br />`. -/
def highlightedText (markdown : String) (selections : List String) : String :=
  if selections.isEmpty then jsReplaceAll markdown "\n" "<br />"
  else jsReplaceAll (selections.foldl highlightStep markdown) "\n" "<br />"

/-- The preview content: the quiz text in quiz mode, the highlighted source
otherwise. -/
def previewContent (st : AppState) : String :=
  if st.viewMode = "quiz" then jsReplaceAll st.quizText "\n" "<br />"
  else highlightedText st.markdown st.selections

/-- The answer list built by the generation loop: consecutive numbers
starting at `n`, one entry per word in iteration order. -/
def numberFrom : Nat → List String → List AnswerData
  | _, [] => []
  | n, w :: ws => ⟨n, w⟩ :: numberFrom (n + 1) ws

/-- Undoing a quiz at the string level, in the order the answer list is
presented: each marker `(No.N)` is globally replaced back by the answer
word of that number. -/
def undoQuiz (qt : String) (answers : List AnswerData) : String :=
  answers.foldl (fun t a => jsReplaceAll t (appMarker a.number) a.word) qt

/-- The state of the TypeScript App variant (adds the display mode). -/
structure TsState where
  displayModeType : String
  viewMode : String
  markdown : String
  quizText : String
  selections : List String
  quizAnswers : List AnswerData
deriving DecidableEq, Repr

/-- Quiz generation of the TypeScript App variant: identical logic with the
`<span>` marker format. -/
def tsGenerateAndSetQuiz (st : TsState) : TsState :=
  if st.selections.isEmpty then st
  else
    let r := genQuizLoopWith tsMarker st.selections st.markdown 1
    { st with quizText := r.1, quizAnswers := r.2, viewMode := "quiz" }

/-- Selection handler of the TypeScript variant: `window.getSelection()` may
be null (optional chaining), hence the `Option` input. -/
def tsHandleSelection (st : TsState) (raw : Option String) : TsState :=
  if st.viewMode ≠ "select" then st
  else
    match raw with
    | none => st
    | some r =>
      if jsTrim r ≠ "" then { st with selections := setAdd st.selections (jsTrim r) }
      else st

/-- The state of the `Editor` component: source text and selection set. -/
structure EditorState where
  markdown : String
  selections : List String
deriving DecidableEq, Repr

/-- The Editor's blank marker: an opening parenthesis, an opening brace, the
counter, a closing brace, a closing parenthesis. -/
def edMarker (n : Nat) : List Char :=
  ("(\x7b" ++ Nat.repr n ++ "\x7d)").data

/-- The first word of the list (regex alternation order) that is a leading
segment of `s`. -/
def firstPrefixWord : List String → List Char → Option String
  | [], _ => none
  | w :: ws, s => if leadsWith w.data s then some w else firstPrefixWord ws s

/-- The Editor's single-pass alternation replace: at each position the first
matching alternative wins, the marker of the running counter is emitted, the
counter is incremented once per replaced occurrence, and scanning resumes
after the match (an empty alternative, unreachable for this app, inserts a
marker and advances one character, as the ECMAScript global replace
does). Returns the rewritten text and the final counter. -/
def goEd (ws : List String) : Nat → List Char → Nat → List Char × Nat
  | 0, s, n => (s, n)
  | _ + 1, [], n =>
    match firstPrefixWord ws [] with
    | some _ => (edMarker n, n + 1)
    | none => ([], n)
  | f + 1, c :: rest, n =>
    match firstPrefixWord ws (c :: rest) with
    | some w =>
      if w.data = [] then
        (edMarker n ++ c :: (goEd ws f rest (n + 1)).1, (goEd ws f rest (n + 1)).2)
      else
        (edMarker n ++ (goEd ws f ((c :: rest).drop w.data.length) (n + 1)).1,
         (goEd ws f ((c :: rest).drop w.data.length) (n + 1)).2)
    | none => (c :: (goEd ws f rest n).1, (goEd ws f rest n).2)

/-- The number of occurrences the Editor replace rewrites (same scan as
`goEd`). -/
def goEdCount (ws : List String) : Nat → List Char → Nat
  | 0, _ => 0
  | _ + 1, [] => if (firstPrefixWord ws []).isSome then 1 else 0
  | f + 1, c :: rest =>
    match firstPrefixWord ws (c :: rest) with
    | some w =>
      if w.data = [] then 1 + goEdCount ws f rest
      else 1 + goEdCount ws f ((c :: rest).drop w.data.length)
    | none => goEdCount ws f rest

/-- The Editor's `createQuiz`: a no-op on an empty selection set; otherwise
the source text is overwritten in place by the alternation-replaced text
(the replacement callback's membership test always succeeds, since a match
of the alternation of escaped literals is one of the selected words), and
the selection set is cleared. -/
def createQuiz (st : EditorState) : EditorState :=
  if st.selections.isEmpty then st
  else
    { markdown := ⟨(goEd st.selections (st.markdown.data.length + 1) st.markdown.data 1).1⟩,
      selections := [] }

/-! ### Helper lemmas -/

theorem leadsWith_iff : ∀ l₁ l₂ : List Char, leadsWith l₁ l₂ = true ↔ ∃ t, l₂ = l₁ ++ t
  | [], l₂ => by simp [leadsWith]
  | _ :: _, [] => by simp [leadsWith]
  | a :: l₁, b :: l₂ => by
    simp only [leadsWith, Bool.and_eq_true, decide_eq_true_eq, leadsWith_iff l₁ l₂,
      List.cons_append, List.cons.injEq]
    constructor
    · rintro ⟨rfl, t, rfl⟩; exact ⟨t, rfl, rfl⟩
    · rintro ⟨t, rfl, rfl⟩; exact ⟨rfl, t, rfl⟩

theorem substTemplate_noDollar (m b a : List Char) :
    ∀ t : List Char, (∀ c ∈ t, c ≠ '$') → substTemplate m b a t = t
  | [], _ => rfl
  | c :: rest, h => by
    have hc : c ≠ '$' := h c (List.mem_cons_self _ _)
    have hr : ∀ x ∈ rest, x ≠ '$' := fun x hx => h x (List.mem_cons_of_mem _ hx)
    rw [substTemplate.eq_def]
    simp [hc, substTemplate_noDollar m b a rest hr]

theorem goSplit_ne_nil (pat : List Char) : ∀ f s, goSplit pat f s ≠ []
  | 0, s => by simp [goSplit]
  | f + 1, s => by
    cases s with
    | nil => simp [goSplit]
    | cons c rest =>
      simp only [goSplit]
      split
      · exact List.cons_ne_nil _ _
      · split <;> exact List.cons_ne_nil _ _

theorem joinsep_cons (sep p : List Char) (ps : List (List Char)) (h : ps ≠ []) :
    joinsep sep (p :: ps) = p ++ sep ++ joinsep sep ps := by
  cases ps with
  | nil => exact absurd rfl h
  | cons q qs => rfl

theorem joinsep_cons_cons (sep : List Char) (c : Char) (p : List Char)
    (ps : List (List Char)) :
    joinsep sep ((c :: p) :: ps) = c :: joinsep sep (p :: ps) := by
  cases ps with
  | nil => rfl
  | cons q qs => simp [joinsep]

theorem strNeNilData (w : String) (hw : w ≠ "") : w.data ≠ [] := by
  intro h
  exact hw (String.ext h)

theorem goRep_cons (pat tmpl : List Char) (f : Nat) (pre : List Char) (c : Char)
    (rest : List Char) :
    goRep pat tmpl (f + 1) pre (c :: rest) =
      if pat ≠ [] ∧ leadsWith pat (c :: rest) = true then
        substTemplate pat pre ((c :: rest).drop pat.length) tmpl
          ++ goRep pat tmpl f (pre ++ pat) ((c :: rest).drop pat.length)
      else c :: goRep pat tmpl f (pre ++ [c]) rest := rfl

theorem goSplit_cons (pat : List Char) (f : Nat) (c : Char) (rest : List Char) :
    goSplit pat (f + 1) (c :: rest) =
      if pat ≠ [] ∧ leadsWith pat (c :: rest) = true then
        [] :: goSplit pat f ((c :: rest).drop pat.length)
      else
        match goSplit pat f rest with
        | [] => [[c]]
        | p :: ps => (c :: p) :: ps := rfl

theorem goRep_eq_joinsep :
    ∀ (pat tmpl : List Char), pat ≠ [] → (∀ c ∈ tmpl, c ≠ '$') →
    ∀ f pre s, s.length < f → goRep pat tmpl f pre s = joinsep tmpl (goSplit pat f s)
  | _, _, _, _, 0, _, _, h => absurd h (Nat.not_lt_zero _)
  | pat, tmpl, hpat, htmpl, f + 1, pre, s, h => by
    cases s with
    | nil => rfl
    | cons c rest =>
      have hps : 0 < pat.length := List.length_pos.mpr hpat
      rw [goRep_cons, goSplit_cons]
      by_cases hm : leadsWith pat (c :: rest) = true
      · rw [if_pos ⟨hpat, hm⟩, if_pos ⟨hpat, hm⟩]
        have hd : ((c :: rest).drop pat.length).length < f := by
          simp only [List.length_drop, List.length_cons]
          simp only [List.length_cons] at h
          omega
        rw [substTemplate_noDollar pat pre _ tmpl htmpl,
          goRep_eq_joinsep pat tmpl hpat htmpl f (pre ++ pat) _ hd,
          joinsep_cons tmpl [] _ (goSplit_ne_nil pat f _)]
        simp
      · rw [if_neg (fun hc => hm hc.2), if_neg (fun hc => hm hc.2)]
        have hr : rest.length < f := by
          simp only [List.length_cons] at h; omega
        rw [goRep_eq_joinsep pat tmpl hpat htmpl f (pre ++ [c]) rest hr]
        obtain ⟨p, ps, hps'⟩ := List.exists_cons_of_ne_nil (goSplit_ne_nil pat f rest)
        rw [hps']
        exact (joinsep_cons_cons tmpl c p ps).symm

theorem joinsep_goSplit :
    ∀ pat : List Char, pat ≠ [] →
    ∀ f s, s.length < f → joinsep pat (goSplit pat f s) = s
  | _, _, 0, _, h => absurd h (Nat.not_lt_zero _)
  | pat, hpat, f + 1, s, h => by
    cases s with
    | nil => rfl
    | cons c rest =>
      have hps : 0 < pat.length := List.length_pos.mpr hpat
      rw [goSplit_cons]
      by_cases hm : leadsWith pat (c :: rest) = true
      · rw [if_pos ⟨hpat, hm⟩]
        have hd : ((c :: rest).drop pat.length).length < f := by
          simp only [List.length_drop, List.length_cons]
          simp only [List.length_cons] at h
          omega
        rw [joinsep_cons pat [] _ (goSplit_ne_nil pat f _),
          joinsep_goSplit pat hpat f _ hd]
        obtain ⟨t, ht⟩ := (leadsWith_iff pat (c :: rest)).mp hm
        rw [ht, List.drop_left]
        simp
      · rw [if_neg (fun hc => hm hc.2)]
        have hr : rest.length < f := by
          simp only [List.length_cons] at h; omega
        obtain ⟨p, ps, hps'⟩ := List.exists_cons_of_ne_nil (goSplit_ne_nil pat f rest)
        rw [hps', joinsep_cons_cons pat c p ps, ← hps',
          joinsep_goSplit pat hpat f rest hr]

theorem goSplit_head (pat : List Char) :
    ∀ f s, ∃ p ps, goSplit pat f s = p :: ps ∧ ∃ t, s = p ++ t
  | 0, s => ⟨s, [], rfl, [], by simp⟩
  | f + 1, s => by
    cases s with
    | nil => exact ⟨[], [], rfl, [], rfl⟩
    | cons c rest =>
      rw [goSplit_cons]
      by_cases hm : (pat ≠ [] ∧ leadsWith pat (c :: rest) = true)
      · exact ⟨[], goSplit pat f ((c :: rest).drop pat.length), by rw [if_pos hm],
          c :: rest, rfl⟩
      · obtain ⟨p, ps, hps, t, ht⟩ := goSplit_head pat f rest
        exact ⟨c :: p, ps, by rw [if_neg hm, hps], t, by rw [List.cons_append, ← ht]⟩

theorem goSplit_no_seg :
    ∀ pat : List Char, pat ≠ [] →
    ∀ f s, s.length < f → ∀ p ∈ goSplit pat f s, ¬ ∃ u v, p = u ++ pat ++ v
  | _, _, 0, _, h => absurd h (Nat.not_lt_zero _)
  | pat, hpat, f + 1, s, h => by
    cases s with
    | nil =>
      intro p hp hocc
      simp only [goSplit, List.mem_singleton] at hp
      subst hp
      obtain ⟨u, v, huv⟩ := hocc
      rw [List.append_assoc] at huv
      obtain ⟨-, hpv⟩ := List.append_eq_nil.mp huv.symm
      exact hpat (List.append_eq_nil.mp hpv).1
    | cons c rest =>
      have hps : 0 < pat.length := List.length_pos.mpr hpat
      intro p hp hocc
      rw [goSplit_cons] at hp
      by_cases hm : leadsWith pat (c :: rest) = true
      · rw [if_pos ⟨hpat, hm⟩] at hp
        have hd : ((c :: rest).drop pat.length).length < f := by
          simp only [List.length_drop, List.length_cons]
          simp only [List.length_cons] at h
          omega
        rcases List.mem_cons.mp hp with rfl | hp'
        · obtain ⟨u, v, huv⟩ := hocc
          rw [List.append_assoc] at huv
          obtain ⟨-, hpv⟩ := List.append_eq_nil.mp huv.symm
          exact hpat (List.append_eq_nil.mp hpv).1
        · exact goSplit_no_seg pat hpat f _ hd p hp' hocc
      · rw [if_neg (fun hc => hm hc.2)] at hp
        have hr : rest.length < f := by
          simp only [List.length_cons] at h; omega
        obtain ⟨p₀, ps, hps', t, ht⟩ := goSplit_head pat f rest
        rw [hps'] at hp
        rcases List.mem_cons.mp hp with rfl | hp'
        · obtain ⟨u, v, huv⟩ := hocc
          cases u with
          | nil =>
            apply hm
            apply (leadsWith_iff pat (c :: rest)).mpr
            refine ⟨v ++ t, ?_⟩
            simp only [List.nil_append] at huv
            rw [ht]
            calc c :: (p₀ ++ t) = (c :: p₀) ++ t := rfl
              _ = (pat ++ v) ++ t := by rw [huv]
              _ = pat ++ (v ++ t) := by rw [List.append_assoc]
          | cons a u =>
            simp only [List.cons_append, List.cons.injEq] at huv
            exact goSplit_no_seg pat hpat f rest hr p₀
              (by rw [hps']; exact List.mem_cons_self _ _) ⟨u, v, huv.2⟩
        · exact goSplit_no_seg pat hpat f rest hr p
            (by rw [hps']; exact List.mem_cons_of_mem _ hp') hocc

theorem hasSeg_iff (pat : List Char) : ∀ s, hasSeg pat s = true ↔ ∃ u v, s = u ++ pat ++ v
  | [] => by
    simp only [hasSeg, List.isEmpty_iff]
    constructor
    · rintro rfl; exact ⟨[], [], rfl⟩
    · rintro ⟨u, v, huv⟩
      rw [List.append_assoc] at huv
      obtain ⟨-, hpv⟩ := List.append_eq_nil.mp huv.symm
      exact (List.append_eq_nil.mp hpv).1
  | c :: rest => by
    simp only [hasSeg, Bool.or_eq_true, leadsWith_iff, hasSeg_iff pat rest]
    constructor
    · rintro (⟨t, ht⟩ | ⟨u, v, huv⟩)
      · exact ⟨[], t, by simp [ht]⟩
      · exact ⟨c :: u, v, by simp [huv]⟩
    · rintro ⟨u, v, huv⟩
      cases u with
      | nil =>
        refine Or.inl ⟨v, ?_⟩
        simpa using huv
      | cons a u =>
        simp only [List.cons_append, List.cons.injEq] at huv
        exact Or.inr ⟨u, v, huv.2⟩

theorem jsReplaceAll_eq_strJoinsep (s w tmpl : String) (hw : w ≠ "")
    (htmpl : ∀ c ∈ tmpl.data, c ≠ '$') :
    jsReplaceAll s w tmpl = strJoinsep tmpl (strSplitOn w s) := by
  have hwd : w.data ≠ [] := strNeNilData w hw
  unfold jsReplaceAll strJoinsep strSplitOn
  rw [if_neg hwd]
  congr 1
  rw [goRep_eq_joinsep w.data tmpl.data hwd htmpl _ [] s.data (by omega)]
  congr 1
  rw [List.map_map]
  simp [Function.comp_def]

theorem strJoinsep_strSplitOn (w s : String) (hw : w ≠ "") :
    strJoinsep w (strSplitOn w s) = s := by
  apply String.ext
  show joinsep w.data ((goSplit w.data (s.data.length + 1) s.data).map String.mk
    |>.map String.data) = s.data
  rw [List.map_map]
  have : (String.data ∘ String.mk) = id := by funext l; rfl
  rw [this, List.map_id]
  exact joinsep_goSplit w.data (strNeNilData w hw) _ s.data (by omega)

theorem strSplitOn_no_seg (w s : String) (hw : w ≠ "") :
    ∀ p ∈ strSplitOn w s, ¬ ∃ u v, p.data = u ++ w.data ++ v := by
  intro p hp
  obtain ⟨l, hl, rfl⟩ := List.mem_map.mp hp
  exact goSplit_no_seg w.data (strNeNilData w hw) _ s.data (by omega) l hl

theorem genQuizLoopWith_answers (marker : Nat → String) :
    ∀ (ws : List String) (text : String) (n : Nat),
      (genQuizLoopWith marker ws text n).2 = numberFrom n ws
  | [], _, _ => rfl
  | w :: ws, text, n => by
    simp [genQuizLoopWith, numberFrom,
      genQuizLoopWith_answers marker ws (jsReplaceAll text w (marker n)) (n + 1)]

theorem genQuizLoopWith_single (marker : Nat → String) (w text : String) (n : Nat) :
    (genQuizLoopWith marker [w] text n).1 = jsReplaceAll text w (marker n) := rfl

theorem numberFrom_map_number :
    ∀ (n : Nat) (ws : List String),
      (numberFrom n ws).map AnswerData.number = List.range' n ws.length
  | _, [] => rfl
  | n, w :: ws => by
    simp [numberFrom, List.range'_succ, numberFrom_map_number (n + 1) ws]

theorem setAdd_idem (s : List String) (w : String) :
    setAdd (setAdd s w) w = setAdd s w := by
  by_cases h : w ∈ s
  · simp [setAdd, h]
  · simp [setAdd, h]

theorem goEd_counter (ws : List String) :
    ∀ (f : Nat) (s : List Char) (n : Nat), (goEd ws f s n).2 = n + goEdCount ws f s
  | 0, s, n => by simp [goEd, goEdCount]
  | f + 1, [], n => by
    cases h : firstPrefixWord ws [] <;>
      simp [goEd, goEdCount, h, Option.isSome]
  | f + 1, c :: rest, n => by
    cases h : firstPrefixWord ws (c :: rest) with
    | none => simp [goEd, goEdCount, h, goEd_counter ws f rest n]
    | some w =>
      by_cases hw : w.data = []
      · have hrec := goEd_counter ws f rest (n + 1)
        simp [goEd, goEdCount, h, hw] at hrec ⊢
        omega
      · have hrec := goEd_counter ws f ((c :: rest).drop w.data.length) (n + 1)
        simp [goEd, goEdCount, h, hw] at hrec ⊢
        omega

theorem literalOfPattern_escape (w : String) :
    literalOfPattern (escapeRegExp w).data = some w.data := by
  show literalOfPattern ((w.data.map escapeChar).flatten) = some w.data
  induction w.data with
  | nil => rfl
  | cons c l ih =>
    by_cases hc : c ∈ regexMetaChars
    · rw [List.map_cons, List.flatten_cons]
      simp only [escapeChar, if_pos hc]
      rw [literalOfPattern.eq_def]
      simp [hc, ih]
    · have hc92 : c ≠ Char.ofNat 92 := by
        intro h
        exact hc (h ▸ (by decide : Char.ofNat 92 ∈ regexMetaChars))
      rw [List.map_cons, List.flatten_cons]
      simp only [escapeChar, if_neg hc]
      rw [literalOfPattern.eq_def]
      simp [hc, hc92, ih]

theorem markTmpl_noDollar (w : String) (hw : ∀ c ∈ w.data, c ≠ '$') :
    ∀ c ∈ (markTmpl w).data, c ≠ '$' := by
  intro c hc
  unfold markTmpl at hc
  rw [String.data_append, String.data_append] at hc
  rcases List.mem_append.mp hc with hc1 | hc2
  · rcases List.mem_append.mp hc1 with hca | hcw
    · exact (by decide :
        ∀ c ∈ ("<mark class=\"bg-yellow-300 px-1 rounded cursor-pointer\">" : String).data,
          c ≠ '$') c hca
    · exact hw c hcw
  · exact (by decide : ∀ c ∈ ("</mark>" : String).data, c ≠ '$') c hc2

theorem generateAndSetQuiz_answers (st : AppState) (h : st.selections ≠ []) :
    (generateAndSetQuiz st).quizAnswers = numberFrom 1 st.selections := by
  have hne : st.selections.isEmpty = false := by
    cases hs : st.selections with
    | nil => exact absurd hs h
    | cons a l => simp
  simp [generateAndSetQuiz, hne, genQuizLoopWith_answers]

theorem generateAndSetQuiz_single (st : AppState) (w : String) (h : st.selections = [w]) :
    (generateAndSetQuiz st).quizText = jsReplaceAll st.markdown w (appMarker 1) := by
  simp [generateAndSetQuiz, h, genQuizLoopWith]

/-! ### Claim theorems -/

/-- C1 counterexample: with source `"cat No"` and selection set
`{"cat", "No"}` (whose targets do not even overlap in the source), the
occurrence of `"cat"` is not carried to the quiz text as an intact marker
numbered 1: the second pass rewrites the `No` inside `**( No.1 )**`, so the
quiz text is not the simultaneous replacement the claim describes, and the
marker of number 1 occurs nowhere in it. -/
theorem generate_every_occurrence_counterexample :
    (generateAndSetQuiz ⟨"select", "cat No", "", ["cat", "No"], []⟩).quizText
        = "**( **( No.2 )**.1 )** **( No.2 )**"
    ∧ (generateAndSetQuiz ⟨"select", "cat No", "", ["cat", "No"], []⟩).quizText
        ≠ "**( No.1 )** **( No.2 )**"
    ∧ ¬ ∃ u v,
        (generateAndSetQuiz ⟨"select", "cat No", "", ["cat", "No"], []⟩).quizText.data
          = u ++ ("**( No.1 )**" : String).data ++ v := by
  refine ⟨by decide, by decide, fun hocc => ?_⟩
  have h1 := (hasSeg_iff ("**( No.1 )**" : String).data
    (generateAndSetQuiz ⟨"select", "cat No", "", ["cat", "No"], []⟩).quizText.data).mpr hocc
  have h2 : hasSeg ("**( No.1 )**" : String).data
      (generateAndSetQuiz ⟨"select", "cat No", "", ["cat", "No"], []⟩).quizText.data
        = false := by decide
  rw [h1] at h2
  exact Bool.noConfusion h2

/-- C1 amended: quiz generation produces exactly one answer entry per
distinct target, numbered consecutively from 1 in iteration order (ascending
number order); each generation pass globally replaces every occurrence of
its target in the text of that pass, so for a single selected target the
quiz text is exactly the source split at every occurrence of the target and
rejoined with the number-1 marker, with no occurrence of the target left in
any piece; the highlight pass is the same global replacement with the
`<mark>` wrapper.  With several targets, later passes may further rewrite
marker text produced by earlier passes (see the counterexample), so the
simultaneous-replacement reading holds only pass by pass. -/
theorem generate_global_replace_amended :
    (∀ st : AppState, st.selections ≠ [] →
      (generateAndSetQuiz st).quizAnswers = numberFrom 1 st.selections)
    ∧ (∀ (n : Nat) (ws : List String),
      (numberFrom n ws).map AnswerData.number = List.range' n ws.length)
    ∧ (∀ (st : AppState) (w : String), st.selections = [w] → w ≠ "" →
      (generateAndSetQuiz st).quizText
          = strJoinsep (appMarker 1) (strSplitOn w st.markdown)
      ∧ ∀ p ∈ strSplitOn w st.markdown, ¬ ∃ u v, p.data = u ++ w.data ++ v)
    ∧ (∀ (md w : String), w ≠ "" → (∀ c ∈ w.data, c ≠ '$') →
      highlightStep md w = strJoinsep (markTmpl w) (strSplitOn w md))
    ∧ (generateAndSetQuiz ⟨"select", "cat cat dog", "", ["cat"], []⟩).quizText
        = "**( No.1 )** **( No.1 )** dog"
    ∧ (generateAndSetQuiz ⟨"select", "cat cat dog", "", ["cat"], []⟩).quizAnswers
        = [⟨1, "cat"⟩]
    ∧ highlightedText "cat cat dog" ["cat"]
        = "<mark class=\"bg-yellow-300 px-1 rounded cursor-pointer\">cat</mark> <mark class=\"bg-yellow-300 px-1 rounded cursor-pointer\">cat</mark> dog" := by
  refine ⟨generateAndSetQuiz_answers, numberFrom_map_number, ?_, ?_, by decide, by decide,
    by decide⟩
  · intro st w h hw
    refine ⟨?_, strSplitOn_no_seg w st.markdown hw⟩
    rw [generateAndSetQuiz_single st w h]
    exact jsReplaceAll_eq_strJoinsep st.markdown w (appMarker 1) hw (by decide)
  · intro md w hw hd
    exact jsReplaceAll_eq_strJoinsep md w (markTmpl w) hw (markTmpl_noDollar w hd)

/-- C1 witness: the amended theorem applied to the single-target state with
source `"cat cat dog"` and selection `"cat"`. -/
theorem generate_global_replace_amended_witness :
    (AppState.mk "select" "cat cat dog" "" ["cat"] []).selections = ["cat"]
    ∧ ("cat" : String) ≠ ""
    ∧ (generateAndSetQuiz ⟨"select", "cat cat dog", "", ["cat"], []⟩).quizText
        = strJoinsep (appMarker 1) (strSplitOn "cat" "cat cat dog") :=
  ⟨rfl, by decide,
    (generate_global_replace_amended.2.2.1 ⟨"select", "cat cat dog", "", ["cat"], []⟩
      "cat" rfl (by decide)).1⟩

/-- C2 counterexample: the two insertion orders of the same selection-set
contents `{"fox", "quick"}` on source `"The quick brown fox"` yield
different numberings (`fox` gets 1 in one and 2 in the other): numbering
follows insertion order into the set, not first-appearance offset. -/
theorem numbering_order_counterexample :
    (["fox", "quick"] : List String).Perm ["quick", "fox"]
    ∧ (generateAndSetQuiz
        ⟨"select", "The quick brown fox", "", ["fox", "quick"], []⟩).quizAnswers
        = [⟨1, "fox"⟩, ⟨2, "quick"⟩]
    ∧ (generateAndSetQuiz
        ⟨"select", "The quick brown fox", "", ["quick", "fox"], []⟩).quizAnswers
        = [⟨1, "quick"⟩, ⟨2, "fox"⟩] :=
  ⟨List.Perm.swap _ _ _, by decide, by decide⟩

/-- C2 amended: numbering is deterministic in the set's insertion
(iteration) order — the i-th word of the selection set receives number i — 
and two states with the same source text and the same insertion order get
identical quiz texts and answer keys; but numbering is not invariant under
reordering the same contents (see the counterexample). -/
theorem numbering_order_amended :
    (∀ st : AppState, st.selections ≠ [] →
      (generateAndSetQuiz st).quizAnswers = numberFrom 1 st.selections)
    ∧ (∀ st₁ st₂ : AppState, st₁.selections ≠ [] →
      st₁.markdown = st₂.markdown → st₁.selections = st₂.selections →
      (generateAndSetQuiz st₁).quizAnswers = (generateAndSetQuiz st₂).quizAnswers
      ∧ (generateAndSetQuiz st₁).quizText = (generateAndSetQuiz st₂).quizText) := by
  refine ⟨generateAndSetQuiz_answers, ?_⟩
  intro st₁ st₂ h1 hmd hsel
  have hne1 : st₁.selections.isEmpty = false := by
    cases hs : st₁.selections with
    | nil => exact absurd hs h1
    | cons a l => simp
  have hne2 : st₂.selections.isEmpty = false := by rw [← hsel]; exact hne1
  constructor <;> simp [generateAndSetQuiz, hne1, hne2, hmd, hsel]

/-- C2 witness: the amended theorem applied to the state with selections
inserted in the order `fox`, `quick`. -/
theorem numbering_order_amended_witness :
    (AppState.mk "select" "The quick brown fox" "" ["fox", "quick"] []).selections ≠ []
    ∧ (generateAndSetQuiz
        ⟨"select", "The quick brown fox", "", ["fox", "quick"], []⟩).quizAnswers
        = numberFrom 1 ["fox", "quick"] :=
  ⟨by decide, numbering_order_amended.1 _ (by decide)⟩

/-- C3: the escaped pattern compiled from any target denotes exactly that
literal string (every metacharacter is backslash-escaped, and such a pattern
matches precisely the literal character sequence), and concretely
highlighting `"a.b"` in `"a.b and axb"` marks only the literal `a.b`,
leaving `axb` unmarked. -/
theorem escape_literal_matching :
    (∀ w : String, literalOfPattern (escapeRegExp w).data = some w.data)
    ∧ highlightedText "a.b and axb" ["a.b"]
        = "<mark class=\"bg-yellow-300 px-1 rounded cursor-pointer\">a.b</mark> and axb" :=
  ⟨literalOfPattern_escape, by decide⟩

/-- C4 counterexample: for source `"cat No"` and selections
`{"cat", "No"}`, replacing each numbered marker in the generated quiz text
back by its answer word (in the order of the answer list) yields
`"**( No.1 )** No"`, not the original source: the string-level undo does not
reconstruct the source text. -/
theorem round_trip_counterexample :
    undoQuiz (generateAndSetQuiz ⟨"select", "cat No", "", ["cat", "No"], []⟩).quizText
        (generateAndSetQuiz ⟨"select", "cat No", "", ["cat", "No"], []⟩).quizAnswers
      = "**( No.1 )** No"
    ∧ undoQuiz (generateAndSetQuiz ⟨"select", "cat No", "", ["cat", "No"], []⟩).quizText
        (generateAndSetQuiz ⟨"select", "cat No", "", ["cat", "No"], []⟩).quizAnswers
      ≠ "cat No" :=
  ⟨by decide, by decide⟩

/-- C4 amended: the round trip holds structurally, pass by pass: every
replacement pass splits its input text at the occurrences of its word and
rejoins the pieces with the marker, and rejoining those same pieces with the
answer word reconstructs that pass's input exactly.  In particular, for a
single selected target the generated quiz text is the source split at the
target's occurrences joined with the number-1 marker, and putting the answer
word back into those blanks yields the original source text. -/
theorem round_trip_amended :
    (∀ (t w tmpl : String), w ≠ "" → (∀ c ∈ tmpl.data, c ≠ '$') →
      jsReplaceAll t w tmpl = strJoinsep tmpl (strSplitOn w t)
      ∧ strJoinsep w (strSplitOn w t) = t)
    ∧ (∀ (st : AppState) (w : String), st.selections = [w] → w ≠ "" →
      (generateAndSetQuiz st).quizText
          = strJoinsep (appMarker 1) (strSplitOn w st.markdown)
      ∧ strJoinsep w (strSplitOn w st.markdown) = st.markdown) := by
  constructor
  · intro t w tmpl hw htmpl
    exact ⟨jsReplaceAll_eq_strJoinsep t w tmpl hw htmpl, strJoinsep_strSplitOn w t hw⟩
  · intro st w h hw
    constructor
    · rw [generateAndSetQuiz_single st w h]
      exact jsReplaceAll_eq_strJoinsep st.markdown w (appMarker 1) hw (by decide)
    · exact strJoinsep_strSplitOn w st.markdown hw

/-- C4 witness: the amended theorem applied to source `"cat cat dog"` and
target `"cat"`. -/
theorem round_trip_amended_witness :
    ("cat" : String) ≠ ""
    ∧ strJoinsep "cat" (strSplitOn "cat" "cat cat dog") = "cat cat dog" :=
  ⟨by decide, (round_trip_amended.1 "cat cat dog" "cat" "x" (by decide) (by decide)).2⟩

/-- C5: generation with an empty selection set is a total no-op in all three
variants: the state (in particular the previous quiz text and answer list)
is returned unchanged, and being a total function the model raises nothing
and produces no partial output. -/
theorem empty_selection_noop :
    (∀ st : AppState, st.selections = [] → generateAndSetQuiz st = st)
    ∧ (∀ st : TsState, st.selections = [] → tsGenerateAndSetQuiz st = st)
    ∧ (∀ st : EditorState, st.selections = [] → createQuiz st = st) := by
  refine ⟨?_, ?_, ?_⟩
  · intro st h
    unfold generateAndSetQuiz
    rw [if_pos (show st.selections.isEmpty = true by rw [h]; rfl)]
  · intro st h
    unfold tsGenerateAndSetQuiz
    rw [if_pos (show st.selections.isEmpty = true by rw [h]; rfl)]
  · intro st h
    unfold createQuiz
    rw [if_pos (show st.selections.isEmpty = true by rw [h]; rfl)]

/-- C5 witness: the no-op theorem applied to a state holding a previous quiz
text and answer list. -/
theorem empty_selection_noop_witness :
    (AppState.mk "select" "abc" "old quiz" [] [⟨1, "x"⟩]).selections = []
    ∧ generateAndSetQuiz ⟨"select", "abc", "old quiz", [], [⟨1, "x"⟩]⟩
        = ⟨"select", "abc", "old quiz", [], [⟨1, "x"⟩]⟩ :=
  ⟨rfl, empty_selection_noop.1 _ rfl⟩

/-- C6 counterexample: for the target `"$$"` the highlight wrapper does not
store the original target as its payload — the ECMAScript replacement-string
substitution turns the interpolated `$$` into a single `$` — so clicking a
highlighted occurrence (whose inner text is `"$"`) does not remove the
target `"$$"` from the selection set. -/
theorem deselect_payload_counterexample :
    highlightedText "$$ $$" ["$$"]
      = "<mark class=\"bg-yellow-300 px-1 rounded cursor-pointer\">$</mark> <mark class=\"bg-yellow-300 px-1 rounded cursor-pointer\">$</mark>"
    ∧ (handlePreviewClick ⟨"select", "$$ $$", "", ["$$"], []⟩ "MARK" "$").selections
        = ["$$"]
    ∧ ("$$" : String)
        ∈ (handlePreviewClick ⟨"select", "$$ $$", "", ["$$"], []⟩ "MARK" "$").selections :=
  ⟨by decide, by decide, by decide⟩

/-- C6 amended: for targets containing no dollar character the wrapper
payload is exactly the original unescaped target (every occurrence is
replaced by the literal `<mark>` wrapper around the word), and in select
mode a click on a `MARK` element removes the clicked word from the selection
set; since the set holds no duplicates, the word is then absent entirely, so
no occurrence of it is highlighted on the next render. -/
theorem deselect_click_amended :
    (∀ (md w : String), w ≠ "" → (∀ c ∈ w.data, c ≠ '$') →
      highlightStep md w = strJoinsep (markTmpl w) (strSplitOn w md))
    ∧ (∀ (st : AppState) (w : String), st.viewMode = "select" → w ≠ "" →
      (handlePreviewClick st "MARK" w).selections = st.selections.erase w)
    ∧ (∀ (l : List String) (w : String), l.Nodup → w ∉ l.erase w) := by
  refine ⟨?_, ?_, ?_⟩
  · intro md w hw hd
    exact jsReplaceAll_eq_strJoinsep md w (markTmpl w) hw (markTmpl_noDollar w hd)
  · intro st w hv hw
    simp [handlePreviewClick, hv, hw]
  · intro l w h hmem
    exact ((List.Nodup.mem_erase_iff h).mp hmem).1 rfl

/-- C6 witness: the amended theorem applied to the dollar-free target
`"cat"`. -/
theorem deselect_click_amended_witness :
    (AppState.mk "select" "cat cat" "" ["cat"] []).viewMode = "select"
    ∧ ("cat" : String) ≠ ""
    ∧ (handlePreviewClick ⟨"select", "cat cat", "", ["cat"], []⟩ "MARK" "cat").selections
        = (["cat"] : List String).erase "cat" :=
  ⟨rfl, by decide, deselect_click_amended.2.1 _ "cat" rfl (by decide)⟩

/-- C7: adding a word to the selection set is idempotent, both at the level
of the raw set insertion and through the full selection handler (which trims
the selected text first). -/
theorem selection_add_idempotent :
    (∀ (s : List String) (w : String), setAdd (setAdd s w) w = setAdd s w)
    ∧ (∀ (st : AppState) (raw : String),
      handleSelection (handleSelection st raw) raw = handleSelection st raw) := by
  refine ⟨setAdd_idem, ?_⟩
  intro st raw
  by_cases hv : st.viewMode = "select"
  · by_cases ht : jsTrim raw = ""
    · simp [handleSelection, hv, ht]
    · simp [handleSelection, hv, ht, setAdd_idem]
  · simp [handleSelection, hv]

/-- C8: an empty or whitespace-only selection attempt is silently ignored in
both App variants: when the trimmed text is empty (or, in the TypeScript
variant, the browser selection is null), the state is unchanged. -/
theorem whitespace_selection_ignored :
    (∀ (st : AppState) (raw : String), jsTrim raw = "" → handleSelection st raw = st)
    ∧ (∀ (st : TsState) (raw : Option String),
      (∀ r, raw = some r → jsTrim r = "") → tsHandleSelection st raw = st) := by
  constructor
  · intro st raw h
    by_cases hv : st.viewMode = "select" <;> simp [handleSelection, hv, h]
  · intro st raw h
    by_cases hv : st.viewMode = "select"
    · cases raw with
      | none => simp [tsHandleSelection, hv]
      | some r => simp [tsHandleSelection, hv, h r rfl]
    · simp [tsHandleSelection, hv]

/-- C8 witness: the theorem applied to a whitespace-only selection. -/
theorem whitespace_selection_ignored_witness :
    jsTrim "  " = ""
    ∧ handleSelection ⟨"select", "abc", "", ["x"], []⟩ "  "
        = ⟨"select", "abc", "", ["x"], []⟩ :=
  ⟨by decide, whitespace_selection_ignored.1 _ "  " (by decide)⟩

/-- C9: in both App variants, quiz generation on a nonempty selection set
leaves the source text and the selection set (and, in the TypeScript
variant, the display mode) unchanged, and sets the view mode to `"quiz"` —
only the quiz text, answer list and view mode fields are updated. -/
theorem generate_frame_effect :
    (∀ st : AppState, st.selections ≠ [] →
      (generateAndSetQuiz st).markdown = st.markdown
      ∧ (generateAndSetQuiz st).selections = st.selections
      ∧ (generateAndSetQuiz st).viewMode = "quiz")
    ∧ (∀ st : TsState, st.selections ≠ [] →
      (tsGenerateAndSetQuiz st).markdown = st.markdown
      ∧ (tsGenerateAndSetQuiz st).selections = st.selections
      ∧ (tsGenerateAndSetQuiz st).displayModeType = st.displayModeType
      ∧ (tsGenerateAndSetQuiz st).viewMode = "quiz") := by
  constructor
  · intro st h
    have hne : st.selections.isEmpty = false := by
      cases hs : st.selections with
      | nil => exact absurd hs h
      | cons a l => simp
    refine ⟨?_, ?_, ?_⟩ <;> simp [generateAndSetQuiz, hne]
  · intro st h
    have hne : st.selections.isEmpty = false := by
      cases hs : st.selections with
      | nil => exact absurd hs h
      | cons a l => simp
    refine ⟨?_, ?_, ?_, ?_⟩ <;> simp [tsGenerateAndSetQuiz, hne]

/-- C9 witness: the frame theorem applied to a concrete nonempty-selection
state. -/
theorem generate_frame_effect_witness :
    (AppState.mk "select" "cat" "" ["cat"] []).selections ≠ []
    ∧ (generateAndSetQuiz ⟨"select", "cat", "", ["cat"], []⟩).viewMode = "quiz" :=
  ⟨by decide, (generate_frame_effect.1 _ (by decide)).2.2⟩

/-- C10: the Editor's `createQuiz` on a nonempty selection set overwrites
the source text in place with the single-pass alternation-replaced text and
clears the selection set; the counter of the replacement pass is incremented
exactly once per replaced occurrence in left-to-right order (the final
counter is the initial one plus the occurrence count), so concretely the
single target `"cat"` in `"cat cat dog"` yields two distinct consecutive
numbers, one per occurrence, not one per distinct target. -/
theorem editor_create_quiz_spec :
    (∀ st : EditorState, st.selections ≠ [] →
      createQuiz st
        = ⟨⟨(goEd st.selections (st.markdown.data.length + 1) st.markdown.data 1).1⟩, []⟩)
    ∧ (∀ (ws : List String) (f : Nat) (s : List Char) (n : Nat),
      (goEd ws f s n).2 = n + goEdCount ws f s)
    ∧ createQuiz ⟨"cat cat dog", ["cat"]⟩ = ⟨"(\x7b1\x7d) (\x7b2\x7d) dog", []⟩
    ∧ goEdCount ["cat"] ("cat cat dog".data.length + 1) "cat cat dog".data = 2 := by
  refine ⟨?_, goEd_counter, by decide, by decide⟩
  intro st h
  have hne : st.selections.isEmpty = false := by
    cases hs : st.selections with
    | nil => exact absurd hs h
    | cons a l => simp
  simp [createQuiz, hne]

/-- C10 witness: the theorem applied to a concrete state. -/
theorem editor_create_quiz_spec_witness :
    (EditorState.mk "ab" ["b"]).selections ≠ []
    ∧ createQuiz ⟨"ab", ["b"]⟩
        = ⟨⟨(goEd ["b"] ("ab".data.length + 1) "ab".data 1).1⟩, []⟩ :=
  ⟨by decide, editor_create_quiz_spec.1 _ (by decide)⟩
